import Mathlib

/-!
Verification of the orchestration behavior of `llama_delray.py`.

The script is straight-line orchestration glue:
* `get_all_directories` walks a root path with `os.walk` and collects every
  subdirectory (joined path) at every depth;
* `load_documents_from_directory` submits one reader task per directory to a
  thread pool, gathers the futures in completion order, extends one aggregate
  document list, prints a diagnostic per failing directory, and advances a
  progress counter once per completed future;
* `main` loads documents, builds the index once, creates a query engine, and
  runs a read-query-print loop that ends when the input lowercases to "exit".

The embedding below models filesystem paths as their component lists
(`os.path.join root d` becomes `root ++ [d]`), a directory as a finitely
branching tree of named subdirectories plus a list of plain files, documents
as an opaque type parameter, and the external collaborators (reader, index,
query engine) as parameters or trace events.  The nondeterministic completion
order of `concurrent.futures.as_completed` is an explicit argument, which
theorems constrain to be a permutation of the submitted directory list.
-/

namespace LlamaDelray

/-- A filesystem path, represented by its list of components.
`os.path.join root d` is embedded as `root ++ [d]`. -/
abbrev FsPath := List String

/-- A directory on disk: a list of named subdirectories (name paired with the
contents of that subdirectory) and a list of plain (non-directory) file names. -/
inductive DirTree : Type where
  | mk : List (String × DirTree) → List String → DirTree

/-- The named subdirectories of a directory. -/
def DirTree.subdirs : DirTree → List (String × DirTree)
  | .mk s _ => s

/-- The plain file names of a directory. -/
def DirTree.files : DirTree → List String
  | .mk _ f => f

mutual

/-- Embeds `os.walk(path)` (top-down, the default): yields
`(root, dirnames, filenames)` for the visited directory first, then walks each
subdirectory recursively, in listing order. -/
def osWalk (path : FsPath) : DirTree → List (FsPath × List String × List String)
  | .mk subs files => (path, subs.map Prod.fst, files) :: osWalkList path subs

/-- The concatenated walks of a list of named subdirectories of `path`. -/
def osWalkList (path : FsPath) : List (String × DirTree) → List (FsPath × List String × List String)
  | [] => []
  | nc :: rest => osWalk (path ++ [nc.1]) nc.2 ++ osWalkList path rest

end

/-- Embeds `get_all_directories(directory)`: for every `(root, dirs, _)` yielded
by `os.walk(directory)`, append `os.path.join(root, dir)` for each `dir` in
`dirs`.  The ambient filesystem is the `fs` argument: `some t` when `directory`
exists on disk with contents `t`, and `none` when it does not exist, in which
case `os.walk` yields nothing (its default `onerror=None` swallows the error),
so the function returns the empty list. -/
def get_all_directories (directory : FsPath) (fs : Option DirTree) : List FsPath :=
  match fs with
  | none => []
  | some t => (osWalk directory t).flatMap (fun e => e.2.1.map (fun d => e.1 ++ [d]))

mutual

/-- The relative paths (component lists) of every directory strictly reachable
by recursive descent from the root of a tree: for each subdirectory `(n, c)`,
the path `[n]` and `n` prefixed to every descendant path of `c`. -/
def descPaths : DirTree → List FsPath
  | .mk subs _ => descPathsList subs

/-- Descendant paths contributed by a list of named subdirectories. -/
def descPathsList : List (String × DirTree) → List FsPath
  | [] => []
  | nc :: rest => (([nc.1] : FsPath) :: (descPaths nc.2).map (List.cons nc.1)) ++ descPathsList rest

end

/-- The absolute paths of the directories strictly reachable by recursive
descent from root path `directory` of tree `t` — the set of directories, per the spec,
the Enumerator must return. -/
def properDescendants (directory : FsPath) (t : DirTree) : List FsPath :=
  (descPaths t).map (fun s => directory ++ s)

mutual

/-- Filesystem validity: in every directory of the tree, the names of the
subdirectories are pairwise distinct (a real filesystem cannot hold two
sibling directories of the same name). -/
def nodupNamesB : DirTree → Bool
  | .mk subs _ => decide ((subs.map Prod.fst).Nodup) && nodupNamesListB subs

/-- `nodupNamesB` on every tree of a subdirectory list. -/
def nodupNamesListB : List (String × DirTree) → Bool
  | [] => true
  | nc :: rest => nodupNamesB nc.2 && nodupNamesListB rest

end

section Loader

variable {α : Type}

/-- The state accumulated by the `as_completed` loop of
`load_documents_from_directory`: the aggregate document list, the diagnostic
lines printed so far, and the `tqdm` progress counter (one tick per completed
future, success or failure). -/
structure LoadState (α : Type) where
  documents : List α
  diagnostics : List String
  progress : Nat
  deriving DecidableEq

/-- The diagnostic printed for a failing directory:
`print(f"Error loading documents from directory {dir}: {e}")`. -/
def loadErrorMessage (dirPath : FsPath) (e : String) : String :=
  "Error loading documents from directory " ++ toString dirPath ++ ": " ++ e

/-- One iteration of the `as_completed` loop: on success extend the aggregate
list with the documents of that future, on an exception print the diagnostic naming
the directory and the error; either way the progress counter ticks. -/
def processCompletion (st : LoadState α) (dirPath : FsPath)
    (res : Except String (List α)) : LoadState α :=
  match res with
  | .ok docs =>
      { st with documents := st.documents ++ docs, progress := st.progress + 1 }
  | .error e =>
      { st with diagnostics := st.diagnostics ++ [loadErrorMessage dirPath e],
                progress := st.progress + 1 }

/-- Embeds `load_documents_from_directory`.  `reader` is the external
collaborator `load_documents_from_single_directory` (it returns the documents of the
directory or raises, modelled by `Except`); `completionOrder` is the order in
which `concurrent.futures.as_completed` yields the futures — theorems
constrain it to be a permutation of `get_all_directories` of the root. -/
def load_documents_from_directory (reader : FsPath → Except String (List α))
    (completionOrder : List FsPath) : LoadState α :=
  completionOrder.foldl (fun st d => processCompletion st d (reader d))
    { documents := [], diagnostics := [], progress := 0 }

/-- The documents a reader outcome contributes to the aggregate list: the
returned list on success, nothing when the reader raised. -/
def okDocs : Except String (List α) → List α
  | .ok docs => docs
  | .error _ => []

/-- The diagnostic lines a reader outcome causes for a given directory. -/
def errDiag (dirPath : FsPath) : Except String (List α) → List String
  | .ok _ => []
  | .error e => [loadErrorMessage dirPath e]

/-- Whether a reader outcome is a success (the reader did not raise). -/
def resultOk : Except String (List α) → Bool
  | .ok _ => true
  | .error _ => false

end Loader

/-- Embeds the Python method `str.lower()` on the ASCII strings the loop compares
against the sentinel (`Char.toLower` lowercases exactly the ASCII letters). -/
def strLower (s : String) : String :=
  String.mk (s.data.map Char.toLower)

/-- Observable events of a run of `main`: a load future completing, the one
`VectorStoreIndex.from_documents` call, the query-engine creation, and the
per-iteration loop events (a query submitted to the engine, its response
streamed to stdout, the trailing `print()` blank line). -/
inductive Event (α : Type) where
  | taskCompleted (dir : FsPath)
  | indexBuilt (docs : List α)
  | engineCreated
  | queried (q : String)
  | streamedOutput
  | printedBlank
  deriving DecidableEq

/-- Embeds the interactive `while True` loop over the (finite) list of lines
the user will type.  Returns the events of the loop together with `true` when
the loop was left via the `exit` sentinel (`query.lower() == "exit"`), and
`false` when the input lines ran out with the loop still awaiting input.  A
non-sentinel line queries the engine with exactly that line, streams the
response, prints one blank line, and loops again. -/
def interactiveLoop {α : Type} : List String → List (Event α) × Bool
  | [] => ([], false)
  | q :: rest =>
      if strLower q = "exit" then ([], true)
      else
        let r := interactiveLoop (α := α) rest
        (Event.queried q :: Event.streamedOutput :: Event.printedBlank :: r.1, r.2)

/-- The event trace of `main(data_folder, model)`: the load phase (one
`taskCompleted` per future, in completion order), then the single index build
over the aggregated documents, then the query-engine creation, then the
interactive loop over the input lines typed by the user. -/
def mainTrace {α : Type} (reader : FsPath → Except String (List α))
    (completionOrder : List FsPath) (inputs : List String) : List (Event α) :=
  completionOrder.map Event.taskCompleted
    ++ [Event.indexBuilt (load_documents_from_directory reader completionOrder).documents]
    ++ [Event.engineCreated]
    ++ (interactiveLoop (α := α) inputs).1

/-- Whether an event is the index build. -/
def Event.isIndexBuilt {α : Type} : Event α → Bool
  | .indexBuilt _ => true
  | _ => false

/-- Whether an event is a query submitted to the query engine. -/
def Event.isQueried {α : Type} : Event α → Bool
  | .queried _ => true
  | _ => false

/-- Whether an event is a load-task completion. -/
def Event.isTaskCompleted {α : Type} : Event α → Bool
  | .taskCompleted _ => true
  | _ => false

/-- A concrete reader used to exercise the loader theorems: directory `b`
raises, every other directory yields two documents. -/
def exReader : FsPath → Except String (List Nat) :=
  fun d => if d = ["b"] then Except.error "boom" else Except.ok [1, 2]

/-- A concrete reader whose calls all succeed, yielding one document per
directory (the depth of the directory). -/
def exReaderOk : FsPath → Except String (List Nat) :=
  fun d => Except.ok [d.length]

/-- A concrete directory tree used to exercise the enumerator theorems:
`a/` (containing `a/b/` with one file), `c/` (empty), and one top-level
file. -/
def exTree : DirTree :=
  DirTree.mk [("a", DirTree.mk [("b", DirTree.mk [] ["f1.txt"])] []),
              ("c", DirTree.mk [] [])] ["top.txt"]

/-! ## Theorems -/

/-- Induction over the nested `DirTree` type: to prove a property of every
tree it suffices to prove it for `DirTree.mk subs files` assuming it for the
tree of every entry of `subs`. -/
theorem DirTree.inductionOn {motive : DirTree → Prop}
    (h : ∀ subs files, (∀ nc ∈ subs, motive nc.2) → motive (DirTree.mk subs files)) :
    ∀ t, motive t
  | .mk subs files =>
      h subs files (fun nc hnc => DirTree.inductionOn h nc.2)
termination_by t => sizeOf t
decreasing_by
  have h1 := List.sizeOf_lt_of_mem hnc
  cases nc
  simp at *
  omega

/-- Running the `as_completed` fold from an arbitrary state appends, per
completed future in order, the documents of each successful future to the
aggregate list and the diagnostics of each failing future to the printed lines, and advances
the progress counter once per future. -/
theorem loader_foldl {α : Type} (reader : FsPath → Except String (List α))
    (completed : List FsPath) (st : LoadState α) :
    completed.foldl (fun st d => processCompletion st d (reader d)) st =
      { documents := st.documents ++ completed.flatMap (fun d => okDocs (reader d)),
        diagnostics := st.diagnostics ++ completed.flatMap (fun d => errDiag d (reader d)),
        progress := st.progress + completed.length } := by
  induction completed generalizing st with
  | nil => simp
  | cons d rest ih =>
      simp only [List.foldl_cons, ih, List.flatMap_cons, List.length_cons]
      cases hr : reader d <;>
        simp [processCompletion, okDocs, errDiag, hr, LoadState.mk.injEq] <;>
        omega

/-- The value of `load_documents_from_directory` in closed form. -/
theorem load_documents_eq {α : Type} (reader : FsPath → Except String (List α))
    (completed : List FsPath) :
    load_documents_from_directory reader completed =
      { documents := completed.flatMap (fun d => okDocs (reader d)),
        diagnostics := completed.flatMap (fun d => errDiag d (reader d)),
        progress := completed.length } := by
  simpa [load_documents_from_directory] using
    loader_foldl reader completed { documents := [], diagnostics := [], progress := 0 }

/-- A loop iteration on a non-sentinel line queries the engine with exactly
that line, streams the output, prints one blank line, and continues on the
remaining input. -/
theorem interactiveLoop_cons_of_ne {α : Type} (q : String) (rest : List String)
    (h : ¬ strLower q = "exit") :
    interactiveLoop (α := α) (q :: rest) =
      (Event.queried q :: Event.streamedOutput :: Event.printedBlank ::
        (interactiveLoop (α := α) rest).1,
       (interactiveLoop (α := α) rest).2) := by
  simp [interactiveLoop, h]

/-- C4: for every input line whose lowercasing equals the literal "exit"
(e.g. "EXIT", "Exit"), the interactive loop transitions to the terminated
state (`true`) with no further events — in particular, without issuing any
query to the Query Engine. -/
theorem exit_terminates_without_query {α : Type} (q : String) (rest : List String)
    (h : strLower q = "exit") :
    interactiveLoop (α := α) (q :: rest) = ([], true) := by
  simp [interactiveLoop, h]

/-- Witness for `exit_terminates_without_query` at the input "EXIT". -/
theorem exit_terminates_without_query_witness :
    strLower "EXIT" = "exit" ∧ interactiveLoop (α := Nat) ("EXIT" :: []) = ([], true) :=
  ⟨by decide, exit_terminates_without_query "EXIT" [] (by decide)⟩

/-- C5: for every non-empty input line that does not lowercase to "exit", the
loop iteration queries the engine exactly once with exactly that line, streams
the response, prints exactly one trailing blank line, and returns to the
prompting state (the loop continues on the remaining input). -/
theorem nonexit_queries_once {α : Type} (q : String) (rest : List String)
    (hne : q ≠ "") (h : ¬ strLower q = "exit") :
    interactiveLoop (α := α) (q :: rest) =
      (Event.queried q :: Event.streamedOutput :: Event.printedBlank ::
        (interactiveLoop (α := α) rest).1,
       (interactiveLoop (α := α) rest).2) :=
  interactiveLoop_cons_of_ne q rest h

/-- Witness for `nonexit_queries_once` at the input "hello". -/
theorem nonexit_queries_once_witness :
    "hello" ≠ "" ∧ ¬ strLower "hello" = "exit" ∧
      interactiveLoop (α := Nat) ("hello" :: []) =
        (Event.queried "hello" :: Event.streamedOutput :: Event.printedBlank ::
          (interactiveLoop (α := Nat) []).1,
         (interactiveLoop (α := Nat) []).2) :=
  ⟨by decide, by decide, nonexit_queries_once "hello" [] (by decide) (by decide)⟩

/-- C10: the empty input line neither terminates the loop nor skips the
iteration: the engine is queried exactly once with the empty string, the
response is streamed, one blank line is printed, and the loop continues. -/
theorem empty_input_queries {α : Type} (rest : List String) :
    interactiveLoop (α := α) ("" :: rest) =
      (Event.queried "" :: Event.streamedOutput :: Event.printedBlank ::
        (interactiveLoop (α := α) rest).1,
       (interactiveLoop (α := α) rest).2) :=
  interactiveLoop_cons_of_ne "" rest (by decide)

/-- C6: over any run whose completed futures are a permutation of the `N`
submitted directories, the progress counter advances once per completed task
and reaches exactly `N`, with no assumption on how many loads failed. -/
theorem progress_reaches_total {α : Type} (reader : FsPath → Except String (List α))
    (dirs completed : List FsPath) (h : completed.Perm dirs) :
    (load_documents_from_directory reader completed).progress = dirs.length := by
  rw [load_documents_eq]
  exact h.length_eq

/-- Witness for `progress_reaches_total`: two directories, one failing load. -/
theorem progress_reaches_total_witness :
    ([["b"], ["a"]] : List FsPath).Perm [["a"], ["b"]] ∧
      (load_documents_from_directory exReader [["b"], ["a"]]).progress =
        ([["a"], ["b"]] : List FsPath).length :=
  ⟨by decide, progress_reaches_total exReader [["a"], ["b"]] [["b"], ["a"]] (by decide)⟩

/-- C9: for a non-existent root path, `get_all_directories` returns the empty
list (no exception is modelled: the function is total), so the loader is given
zero tasks: its progress stays at zero and the aggregate collection is empty,
and the run proceeds. -/
theorem missing_root_empty {α : Type} (directory : FsPath)
    (reader : FsPath → Except String (List α)) :
    get_all_directories directory none = [] ∧
      (load_documents_from_directory reader (get_all_directories directory none)).progress = 0 ∧
      (load_documents_from_directory reader (get_all_directories directory none)).documents = [] := by
  refine ⟨rfl, ?_, ?_⟩ <;> simp [get_all_directories, load_documents_from_directory]

/-- C1: when, among the `N` enumerated directories, exactly one
reader call raises and the other `N - 1` succeed, the aggregate collection is, as a
multiset (list up to permutation), the union of the `N - 1` successful
per-directory results; exactly one diagnostic line is printed, naming the
failing directory and its error; and the loader completes (it is a total
function, returning the final state). -/
theorem single_failure_tolerated {α : Type} (reader : FsPath → Except String (List α))
    (rest completed : List FsPath) (d0 : FsPath) (e : String)
    (hperm : completed.Perm (d0 :: rest))
    (herr : reader d0 = Except.error e)
    (hok : ∀ d ∈ rest, resultOk (reader d) = true) :
    ((load_documents_from_directory reader completed).documents).Perm
        (rest.flatMap (fun d => okDocs (reader d))) ∧
      (load_documents_from_directory reader completed).diagnostics =
        [loadErrorMessage d0 e] := by
  have hne : ∀ d ∈ rest, errDiag d (reader d) = ([] : List String) := by
    intro d hd
    have hdok := hok d hd
    cases hr : reader d with
    | ok docs => rfl
    | error e2 => rw [hr] at hdok; exact absurd hdok (by simp [resultOk])
  constructor
  · rw [load_documents_eq]
    have p1 := hperm.flatMap_right (fun d => okDocs (reader d))
    have heq : (d0 :: rest).flatMap (fun d => okDocs (reader d))
        = rest.flatMap (fun d => okDocs (reader d)) := by
      simp [herr, okDocs]
    exact heq ▸ p1
  · rw [load_documents_eq]
    have p1 := hperm.flatMap_right (fun d => errDiag d (reader d))
    have heq : (d0 :: rest).flatMap (fun d => errDiag d (reader d))
        = [loadErrorMessage d0 e] := by
      rw [List.flatMap_cons, herr, List.flatMap_eq_nil_iff.mpr hne]
      simp [errDiag]
    exact (heq ▸ p1).eq_singleton

/-- Witness for `single_failure_tolerated`: directories `a` and `b`, the
future of `b` completing first and raising. -/
theorem single_failure_tolerated_witness :
    ([["b"], ["a"]] : List FsPath).Perm [["b"], ["a"]] ∧
      exReader ["b"] = Except.error "boom" ∧
      ((load_documents_from_directory exReader [["b"], ["a"]]).documents).Perm
        (([["a"]] : List FsPath).flatMap (fun d => okDocs (exReader d))) ∧
      (load_documents_from_directory exReader [["b"], ["a"]]).diagnostics =
        [loadErrorMessage ["b"] "boom"] := by
  refine ⟨by decide, rfl, ?_⟩
  exact single_failure_tolerated exReader [["a"]] [["b"], ["a"]] ["b"] "boom"
    (by decide) rfl (by decide)

/-- C3: when every reader call succeeds, the aggregate collection equals, as a
multiset, the union of every per-directory result, and it is the same multiset
for every completion order of the load tasks. -/
theorem aggregate_union_of_success {α : Type} (reader : FsPath → Except String (List α))
    (dirs c1 c2 : List FsPath)
    (h1 : c1.Perm dirs) (h2 : c2.Perm dirs)
    (hok : ∀ d ∈ dirs, resultOk (reader d) = true) :
    (((load_documents_from_directory reader c1).documents : Multiset α) =
        (dirs.flatMap (fun d => okDocs (reader d)) : Multiset α)) ∧
      ((load_documents_from_directory reader c1).documents : Multiset α) =
        ((load_documents_from_directory reader c2).documents : Multiset α) := by
  rw [load_documents_eq, load_documents_eq]
  exact ⟨Multiset.coe_eq_coe.mpr (h1.flatMap_right _),
    Multiset.coe_eq_coe.mpr ((h1.flatMap_right _).trans (h2.flatMap_right _).symm)⟩

/-- Witness for `aggregate_union_of_success`: two directories, two different
completion orders, all reader calls succeeding. -/
theorem aggregate_union_of_success_witness :
    ([["a"], ["b", "c"]] : List FsPath).Perm [["a"], ["b", "c"]] ∧
      ([["b", "c"], ["a"]] : List FsPath).Perm [["a"], ["b", "c"]] ∧
      (((load_documents_from_directory exReaderOk [["a"], ["b", "c"]]).documents : Multiset Nat) =
        (([["a"], ["b", "c"]] : List FsPath).flatMap
          (fun d => okDocs (exReaderOk d)) : Multiset Nat)) ∧
      ((load_documents_from_directory exReaderOk [["a"], ["b", "c"]]).documents : Multiset Nat) =
        ((load_documents_from_directory exReaderOk [["b", "c"], ["a"]]).documents : Multiset Nat) := by
  refine ⟨by decide, by decide, ?_⟩
  exact aggregate_union_of_success exReaderOk [["a"], ["b", "c"]]
    [["a"], ["b", "c"]] [["b", "c"], ["a"]] (by decide) (by decide) (by decide)

/-- Every event emitted by the interactive loop is a query, a streamed
response, or a blank line — never a load-task completion or an index build. -/
theorem loop_events_only {α : Type} (inputs : List String) :
    ∀ e ∈ (interactiveLoop (α := α) inputs).1,
      Event.isTaskCompleted e = false ∧ Event.isIndexBuilt e = false := by
  induction inputs with
  | nil => simp [interactiveLoop]
  | cons q rest ih =>
      by_cases h : strLower q = "exit"
      · simp [interactiveLoop, h]
      · intro e he
        simp only [interactiveLoop, if_neg h, List.mem_cons] at he
        rcases he with rfl | rfl | rfl | he
        · exact ⟨rfl, rfl⟩
        · exact ⟨rfl, rfl⟩
        · exact ⟨rfl, rfl⟩
        · exact ih e he

/-- C7: in every run, the trace of `main` contains exactly one index-build
event; every load completion precedes it and no load completion nor any query
follows before it — the build happens after loading is fully complete and
before any query is served, and the index is never rebuilt. -/
theorem index_built_once {α : Type} (reader : FsPath → Except String (List α))
    (completionOrder : List FsPath) (inputs : List String) :
    (mainTrace reader completionOrder inputs).countP (fun e => Event.isIndexBuilt e) = 1 ∧
      ∃ pre docs post,
        mainTrace reader completionOrder inputs = pre ++ Event.indexBuilt docs :: post ∧
          (∀ e ∈ pre, Event.isIndexBuilt e = false ∧ Event.isQueried e = false) ∧
          (∀ e ∈ post, Event.isIndexBuilt e = false ∧ Event.isTaskCompleted e = false) := by
  constructor
  · have h1 : (completionOrder.map Event.taskCompleted).countP
        (fun e => Event.isIndexBuilt (α := α) e) = 0 := by
      rw [List.countP_map]
      exact List.countP_eq_zero.mpr (fun d _ => by simp [Event.isIndexBuilt, Function.comp])
    have h2 : ((interactiveLoop (α := α) inputs).1).countP
        (fun e => Event.isIndexBuilt e) = 0 :=
      List.countP_eq_zero.mpr (fun e he => by simp [(loop_events_only inputs e he).2])
    simp only [mainTrace, List.countP_append, h1, h2]
    rfl
  · refine ⟨completionOrder.map Event.taskCompleted,
      (load_documents_from_directory reader completionOrder).documents,
      Event.engineCreated :: (interactiveLoop (α := α) inputs).1, ?_, ?_, ?_⟩
    · simp [mainTrace]
    · intro e he
      rcases List.mem_map.mp he with ⟨d, _, rfl⟩
      exact ⟨rfl, rfl⟩
    · intro e he
      rcases List.mem_cons.mp he with rfl | he
      · exact ⟨rfl, rfl⟩
      · exact ⟨(loop_events_only inputs e he).2, (loop_events_only inputs e he).1⟩

/-- Every descendant path contributed by a subdirectory list starts with the
name of one of its entries. -/
theorem descPathsList_head (subs : List (String × DirTree)) :
    ∀ s ∈ descPathsList subs, ∃ nc ∈ subs, s.head? = some nc.1 := by
  induction subs with
  | nil => simp [descPathsList]
  | cons nc rest ih =>
      intro s hs
      simp only [descPathsList, List.mem_append, List.mem_cons] at hs
      rcases hs with (rfl | hs) | hs
      · exact ⟨nc, List.mem_cons_self nc rest, rfl⟩
      · rcases List.mem_map.mp hs with ⟨s2, _, rfl⟩
        exact ⟨nc, List.mem_cons_self nc rest, rfl⟩
      · rcases ih s hs with ⟨mc, hmc, hh⟩
        exact ⟨mc, List.mem_cons_of_mem nc hmc, hh⟩

/-- No descendant path is empty: every enumerated directory is a strict
descendant of the root. -/
theorem ne_nil_of_mem_descPaths (t : DirTree) : ∀ s ∈ descPaths t, s ≠ [] := by
  cases t with
  | mk subs files =>
      intro s hs hnil
      rw [descPaths] at hs
      rcases descPathsList_head subs s hs with ⟨nc, _, hh⟩
      rw [hnil] at hh
      exact Option.noConfusion hh

/-- Under distinct sibling names, the descendant paths of a subdirectory list
are pairwise distinct. -/
theorem descPathsList_nodup (subs : List (String × DirTree))
    (hih : ∀ nc ∈ subs, (descPaths nc.2).Nodup)
    (hnames : (subs.map Prod.fst).Nodup) :
    (descPathsList subs).Nodup := by
  induction subs with
  | nil => simp [descPathsList]
  | cons nc rest ih =>
      rw [descPathsList]
      rw [List.map_cons, List.nodup_cons] at hnames
      apply List.Nodup.append
      · rw [List.nodup_cons]
        constructor
        · intro hmem
          rcases List.mem_map.mp hmem with ⟨s, hs, heq⟩
          have hnil : s = [] := by
            have := (List.cons.injEq nc.1 s nc.1 []).mp heq
            exact this.2
          exact ne_nil_of_mem_descPaths nc.2 s hs hnil
        · exact (hih nc (List.mem_cons_self nc rest)).map List.cons_injective
      · exact ih (fun mc hmc => hih mc (List.mem_cons_of_mem nc hmc)) hnames.2
      · intro s hs1 hs2
        rcases descPathsList_head rest s hs2 with ⟨mc, hmc, hh2⟩
        have hh1 : s.head? = some nc.1 := by
          rcases List.mem_cons.mp hs1 with rfl | hs1
          · rfl
          · rcases List.mem_map.mp hs1 with ⟨s2, _, rfl⟩
            rfl
        rw [hh1] at hh2
        have hname : nc.1 = mc.1 := Option.some.inj hh2
        exact hnames.1 (hname ▸ List.mem_map_of_mem Prod.fst hmc)

/-- `nodupNamesListB` holds of a list exactly when `nodupNamesB` holds of
the tree of every entry. -/
theorem nodupNamesListB_spec (subs : List (String × DirTree))
    (h : nodupNamesListB subs = true) :
    ∀ nc ∈ subs, nodupNamesB nc.2 = true := by
  induction subs with
  | nil => simp
  | cons nc rest ih =>
      rw [nodupNamesListB, Bool.and_eq_true] at h
      intro mc hmc
      rcases List.mem_cons.mp hmc with rfl | hmc
      · exact h.1
      · exact ih h.2 mc hmc

/-- On a valid filesystem the descendant paths of a tree are pairwise
distinct. -/
theorem descPaths_nodup : ∀ t : DirTree, nodupNamesB t = true → (descPaths t).Nodup := by
  intro t
  induction t using DirTree.inductionOn with
  | h subs files ih =>
      intro h
      rw [nodupNamesB, Bool.and_eq_true] at h
      rw [descPaths]
      exact descPathsList_nodup subs
        (fun nc hnc => ih nc hnc (nodupNamesListB_spec subs h.2 nc hnc))
        (of_decide_eq_true h.1)

/-- The directories collected from the walk of a subdirectory list are a
permutation of the mapped descendant paths, given the corresponding fact for
the tree of each entry. -/
theorem walkList_perm_aux (subs : List (String × DirTree))
    (hih : ∀ nc ∈ subs, ∀ r : FsPath,
      ((osWalk r nc.2).flatMap (fun e => e.2.1.map (fun d => e.1 ++ [d]))).Perm
        ((descPaths nc.2).map (fun s => r ++ s))) :
    ∀ root : FsPath,
      ((subs.map Prod.fst).map (fun d => root ++ [d])
          ++ (osWalkList root subs).flatMap (fun e => e.2.1.map (fun d => e.1 ++ [d]))).Perm
        ((descPathsList subs).map (fun s => root ++ s)) := by
  induction subs with
  | nil =>
      intro root
      simp only [osWalkList, descPathsList, List.map_nil, List.flatMap_nil,
        List.append_nil]
      exact List.Perm.refl []
  | cons nc rest ih =>
      intro root
      rw [osWalkList, descPathsList, List.map_cons, List.map_cons,
        List.flatMap_append, List.map_append, List.map_cons]
      rw [List.cons_append]
      refine List.Perm.cons (root ++ [nc.1]) ?_
      have hswap :
          ((rest.map Prod.fst).map (fun d => root ++ [d])
              ++ ((osWalk (root ++ [nc.1]) nc.2).flatMap (fun e => e.2.1.map (fun d => e.1 ++ [d]))
                  ++ (osWalkList root rest).flatMap (fun e => e.2.1.map (fun d => e.1 ++ [d])))).Perm
            ((osWalk (root ++ [nc.1]) nc.2).flatMap (fun e => e.2.1.map (fun d => e.1 ++ [d]))
              ++ ((rest.map Prod.fst).map (fun d => root ++ [d])
                  ++ (osWalkList root rest).flatMap (fun e => e.2.1.map (fun d => e.1 ++ [d])))) := by
        rw [← List.append_assoc, ← List.append_assoc]
        exact List.perm_append_comm.append_right _
      refine hswap.trans ?_
      have h1 := hih nc (List.mem_cons_self nc rest) (root ++ [nc.1])
      have h2 := ih (fun mc hmc => hih mc (List.mem_cons_of_mem nc hmc)) root
      refine (h1.append h2).trans ?_
      have hmaps : (descPaths nc.2).map (fun s => (root ++ [nc.1]) ++ s)
          = ((descPaths nc.2).map (List.cons nc.1)).map (fun s => root ++ s) := by
        rw [List.map_map]
        exact List.map_congr_left (fun s _ => by simp)
      rw [hmaps]
      exact List.Perm.refl _

/-- The list returned by `get_all_directories` on an existing root is a
permutation of the root-prefixed descendant paths of its tree. -/
theorem get_all_perm_aux : ∀ t : DirTree, ∀ root : FsPath,
    ((osWalk root t).flatMap (fun e => e.2.1.map (fun d => e.1 ++ [d]))).Perm
      ((descPaths t).map (fun s => root ++ s)) := by
  intro t
  induction t using DirTree.inductionOn with
  | h subs files ih =>
      intro root
      rw [osWalk, descPaths, List.flatMap_cons]
      exact walkList_perm_aux subs (fun nc hnc r => ih nc hnc r) root

/-- The root path itself is never among the enumerated directories. -/
theorem root_not_mem (directory : FsPath) (fs : Option DirTree) :
    directory ∉ get_all_directories directory fs := by
  cases fs with
  | none => simp [get_all_directories]
  | some t =>
      intro hmem
      have hperm := get_all_perm_aux t directory
      rw [get_all_directories] at hmem
      have hmem2 := hperm.mem_iff.mp hmem
      rcases List.mem_map.mp hmem2 with ⟨s, hs, heq⟩
      have hnil : s = [] := by
        have := heq.symm
        rwa [List.self_eq_append_right] at this
      exact ne_nil_of_mem_descPaths t s hs hnil

/-- C2: on a valid filesystem (distinct sibling names), `get_all_directories`
returns exactly the directories strictly reachable by recursive descent from
the root — a permutation of the root-prefixed descendant paths — with no
duplicate entries, no non-directory entries, and the root itself excluded. -/
theorem enumerator_exact (directory : FsPath) (t : DirTree)
    (h : nodupNamesB t = true) :
    (get_all_directories directory (some t)).Perm (properDescendants directory t) ∧
      (get_all_directories directory (some t)).Nodup ∧
      directory ∉ get_all_directories directory (some t) := by
  have hperm : (get_all_directories directory (some t)).Perm (properDescendants directory t) := by
    rw [get_all_directories, properDescendants]
    exact get_all_perm_aux t directory
  refine ⟨hperm, ?_, root_not_mem directory (some t)⟩
  rw [hperm.nodup_iff, properDescendants]
  have hinj : Function.Injective (fun s : FsPath => directory ++ s) :=
    fun s1 s2 hss => List.append_cancel_left hss
  exact (descPaths_nodup t h).map hinj

/-- Witness for `enumerator_exact` at a small concrete tree. -/
theorem enumerator_exact_witness :
    nodupNamesB exTree = true ∧
      ((get_all_directories ["root"] (some exTree)).Perm (properDescendants ["root"] exTree) ∧
        (get_all_directories ["root"] (some exTree)).Nodup ∧
        (["root"] : FsPath) ∉ get_all_directories ["root"] (some exTree)) :=
  ⟨rfl, enumerator_exact ["root"] exTree rfl⟩

/-- C8: the files sitting directly in the root are never loaded: the root
itself is never among the enumerated directories handed to the loader, and a
root containing only top-level files (no subdirectory) enumerates to the empty
list, so the aggregate collection of the loader is empty. -/
theorem root_level_files_excluded {α : Type} (directory : FsPath) (fs : Option DirTree)
    (files : List String) (reader : FsPath → Except String (List α))
    (completed : List FsPath)
    (hperm : completed.Perm (get_all_directories directory (some (DirTree.mk [] files)))) :
    directory ∉ get_all_directories directory fs ∧
      get_all_directories directory (some (DirTree.mk [] files)) = [] ∧
      (load_documents_from_directory reader completed).documents = [] := by
  have hempty : get_all_directories directory (some (DirTree.mk [] files)) = [] := by
    rw [get_all_directories, osWalk, osWalkList, List.flatMap_cons]
    simp
  refine ⟨root_not_mem directory fs, hempty, ?_⟩
  rw [hempty] at hperm
  rw [hperm.eq_nil]
  rfl

/-- Witness for `root_level_files_excluded`: a root holding one top-level
file and no subdirectory. -/
theorem root_level_files_excluded_witness :
    ([] : List FsPath).Perm
        (get_all_directories ["root"] (some (DirTree.mk [] ["top.txt"]))) ∧
      ((["root"] : FsPath) ∉ get_all_directories ["root"] (some exTree) ∧
        get_all_directories ["root"] (some (DirTree.mk [] ["top.txt"])) = [] ∧
        (load_documents_from_directory exReader []).documents = []) := by
  have hp : ([] : List FsPath).Perm
      (get_all_directories ["root"] (some (DirTree.mk [] ["top.txt"]))) := by
    rw [get_all_directories, osWalk, osWalkList, List.flatMap_cons]
    simp
  exact ⟨hp, root_level_files_excluded ["root"] (some exTree) ["top.txt"] exReader [] hp⟩

end LlamaDelray
